import Mathlib

/-
Verification of `0x00-personal_data/filtered_logger.py`.

The module under verification builds, at every call, the regular expression

    (?P<field>F1|F2|...|Fn)=[^S]*          (from `patterns['extract']`)

where `F1..Fn` are the raw (unescaped) field names joined by `'|'` and `S` is
the raw separator string spliced into a negated character class, and rewrites
every match of it to `\g<field>=<redaction>` (from `patterns['replace']`) via
`re.sub` (`filter_datum`).  `RedactingFormatter.format` renders the envelope
`"[HOLBERTON] %(name)s %(levelname)s %(asctime)-15s: %(message)s"` and pipes
the rendered string through `filter_datum` with token `"***"` and separator
`";"`.

The embedding below models exactly the fragment of regex syntax reachable from
this construction:

* the alternation is the `'|'`-split of the `'|'`-join of the field names
  (`joinPipe` / `splitPipe`), tried left to right, exactly as the backtracking
  engine of `re` tries alternatives in order;
* each alternative is a sequence of single-character atoms: a plain character
  matches itself and `'.'` matches any character except a newline
  (`parseAtom`); any other regex metacharacter in a field name takes the
  construction outside this fragment and `parseAtom` refuses it;
* after the alternative, the engine requires a literal `'='` and then consumes
  the maximal run of characters outside the separator set — `[^S]*` is a
  negated character class, so a multi-character separator contributes each of
  its characters individually (`fieldMatch`);
* `re.sub` scans left to right, copying unmatched characters and restarting
  after the end of each match (`subScan`); every match consumes at least the
  `'='`, so the scan progresses.

`re.sub` is fallible: an invalid pattern (for instance a field name `"("`,
which yields the unterminated group `(?P<field>()=[^;]*`, or an empty
separator, which yields the unterminated class `[^]*`) raises `re.error`, and
a replacement template containing a backslash escape can raise as well.
`filter_datum` therefore returns an `Option`: `none` models a raised
exception, covering both the genuinely invalid patterns and the inputs whose
pattern leaves the literal/any-character fragment modelled here.

The recursion of the scan jumps to the remainder after each match, so it is
phrased with an explicit fuel (`subScanF`), instantiated with the length of
the subject string; the fuel is invisible in all statements (`subScan`).
-/

namespace FilteredLogger

/-- Characters that are regex operators outside a character class (besides
`'|'`, which the construction itself uses as the alternation separator, and
`'.'`, which is modelled as the any-character atom). A field name containing
one of these produces a pattern outside the fragment modelled here. -/
def reMeta : List Char := ['(', ')', '[', ']', '{', '}', '*', '+', '?', '\\', '^', '$']

/-- One single-character atom of an alternative of the constructed pattern. -/
inductive Atom where
  | lit (c : Char)
  | anyChar

/-- A character of a field name, as the regex engine reads it: `'.'` becomes
the any-character atom, a regex operator leaves the modelled fragment, and
every other character matches itself literally. -/
def parseAtom (c : Char) : Option Atom :=
  if c = '.' then some Atom.anyChar
  else if c ∈ reMeta then none
  else some (Atom.lit c)

/-- An alternative of the pattern, parsed character by character. -/
def parseAlt : List Char → Option (List Atom)
  | [] => some []
  | c :: rest =>
    match parseAtom c, parseAlt rest with
    | some a, some as => some (a :: as)
    | _, _ => none

/-- `'|'.join(fields)`: the field names joined with `'|'`. -/
def joinPipe : List (List Char) → List Char
  | [] => []
  | [f] => f
  | f :: fs => f ++ '|' :: joinPipe fs

/-- The top-level alternation structure of the joined names: the regex engine
splits the group body at every `'|'`. -/
def splitPipe : List Char → List (List Char)
  | [] => [[]]
  | c :: rest =>
    if c = '|' then [] :: splitPipe rest
    else
      match splitPipe rest with
      | [] => [[c]]
      | g :: gs => (c :: g) :: gs

/-- All alternatives of the pattern, parsed. -/
def parseAlts : List (List Char) → Option (List (List Atom))
  | [] => some []
  | g :: gs =>
    match parseAlt g, parseAlts gs with
    | some a, some as => some (a :: as)
    | _, _ => none

/-- Compilation of `patterns['extract']`'s group `(?P<field>'|'.join(fields))`:
join the raw field names with `'|'` and parse the resulting alternation. -/
def compileAlts (fields : List String) : Option (List (List Atom)) :=
  parseAlts (splitPipe (joinPipe (fields.map String.data)))

/-- Characters that are special inside the negated character class `[^S]*`:
an empty separator or one containing these leaves the modelled fragment
(an empty separator makes `re.compile` raise outright). -/
def sepBad : List Char := [']', '\\', '-']

/-- Compilation of the class `[^S]*` built from the raw separator string:
each character of the separator individually becomes a forbidden character. -/
def compileSep (separator : String) : Option (List Char) :=
  if separator.data = [] then none
  else if separator.data.any (fun c => decide (c ∈ sepBad)) then none
  else some separator.data

/-- The class `[^S]` as a predicate: a character the value run may consume. -/
def notSep (sep : List Char) (c : Char) : Bool := !(decide (c ∈ sep))

/-- How one atom matches one character (`'.'` does not match a newline). -/
def atomMatches : Atom → Char → Bool
  | Atom.lit c, d => c == d
  | Atom.anyChar, d => d != '\n'

/-- Matching an alternative at the head of the subject: returns the consumed
text (the capture of the group `field`) and the remainder. -/
def matchAlt : List Atom → List Char → Option (List Char × List Char)
  | [], s => some ([], s)
  | _ :: _, [] => none
  | a :: as, c :: s =>
    if atomMatches a c then
      match matchAlt as s with
      | some (m, r) => some (c :: m, r)
      | none => none
    else none

/-- After the alternative: the literal `'='` of the pattern, then the greedy
value run `[^S]*`; returns the capture together with the remainder after the
whole match. -/
def eqThenValue (sep m : List Char) : List Char → Option (List Char × List Char)
  | c :: r0 => if c = '=' then some (m, r0.dropWhile (notSep sep)) else none
  | [] => none

/-- Matching one alternative of the full pattern at the head of the subject:
the alternative, then a literal `'='`, then the greedy value run `[^S]*`.
Returns the capture of `field` and the remainder after the whole match. -/
def fieldMatch (alt : List Atom) (sep : List Char) (s : List Char) :
    Option (List Char × List Char) :=
  (matchAlt alt s).bind (fun p => eqThenValue sep p.1 p.2)

/-- Matching the pattern at the head of the subject: alternatives are tried
left to right and the first one that completes a match wins, exactly as the
backtracking engine orders alternation. -/
def tryMatchAt (alts : List (List Atom)) (sep : List Char) (s : List Char) :
    Option (List Char × List Char) :=
  match alts with
  | [] => none
  | alt :: rest =>
    match fieldMatch alt sep s with
    | some res => some res
    | none => tryMatchAt rest sep s

/-- The global-substitution scan of `re.sub`, with explicit fuel: at each
position try the pattern; on a match emit `field ++ "=" ++ redaction` and
continue after the match, otherwise copy one character. Each match consumes
at least its `'='`, so fuel equal to the subject length suffices. -/
def subScanF (alts : List (List Atom)) (red sep : List Char) :
    Nat → List Char → List Char
  | _, [] => []
  | 0, s => s
  | fuel + 1, c :: rest =>
    match tryMatchAt alts sep (c :: rest) with
    | some (m, r) => m ++ '=' :: (red ++ subScanF alts red sep fuel r)
    | none => c :: subScanF alts red sep fuel rest

/-- The global-substitution scan of `re.sub` over a subject string. -/
def subScan (alts : List (List Atom)) (red sep s : List Char) : List Char :=
  subScanF alts red sep s.length s

/-- `filter_datum(fields, redaction, message, separator)`:
`re.sub(extract(fields, separator), replace(redaction), message)`.
`none` models a raised `re.error` (invalid pattern, or a pattern outside the
literal/any-character fragment; a backslash in the replacement template can
also raise during template parsing). -/
def filter_datum (fields : List String) (redaction message separator : String) :
    Option String :=
  match compileAlts fields, compileSep separator with
  | some alts, some sep =>
    if '\\' ∈ redaction.data then none
    else some (String.mk (subScan alts redaction.data sep message.data))
  | _, _ => none

/-- `PII_FIELDS` from the source. -/
def PII_FIELDS : List String := ["name", "email", "phone", "ssn", "password"]

/-- The data a `logging.LogRecord` contributes to the fixed format string:
logger name, level name, formatted time, and the final message text. -/
structure LogRecord where
  name : String
  levelname : String
  asctime : String
  message : String

/-- `%-15s`: left-justify to a minimum width of 15 by padding with spaces. -/
def padRight15 (s : String) : String :=
  s ++ String.mk (List.replicate (15 - s.length) ' ')

/-- The redacting formatter: it stores the field list given at construction. -/
structure RedactingFormatter where
  fields : List String

/-- `RedactingFormatter.REDACTION`. -/
def RedactingFormatter.REDACTION : String := "***"

/-- `RedactingFormatter.SEPARATOR`. -/
def RedactingFormatter.SEPARATOR : String := ";"

/-- `logging.Formatter.format` applied to the fixed template
`"[HOLBERTON] %(name)s %(levelname)s %(asctime)-15s: %(message)s"`:
substitute the record's name, level name, `-15`-padded time and message. -/
def baseFormat (record : LogRecord) : String :=
  "[HOLBERTON] " ++ record.name ++ " " ++ record.levelname ++ " "
    ++ padRight15 record.asctime ++ ": " ++ record.message

/-- `RedactingFormatter.format`: render the envelope, then redact the whole
rendered string with the stored fields, `REDACTION` and `SEPARATOR`. -/
def RedactingFormatter.format (f : RedactingFormatter) (record : LogRecord) :
    Option String :=
  filter_datum f.fields RedactingFormatter.REDACTION (baseFormat record)
    RedactingFormatter.SEPARATOR

/-- `needle` occurs as a contiguous substring of `hay`. -/
def occursIn (needle : List Char) : List Char → Bool
  | [] => needle.isEmpty
  | c :: t => needle.isPrefixOf (c :: t) || occursIn needle t

/-- An alternative of the compiled pattern that matches only its own literal
text, and whose text contains no `'='`: the shape under which one left-to-right
substitution pass cannot create new matches for a later pass. -/
def goodAlt (alt : List Atom) : Prop :=
  ∃ ws : List Char, alt = ws.map Atom.lit ∧ ¬ '=' ∈ ws

/-- The list is empty or starts with a separator character — the shape of the
remainder `re.sub` continues from after a match. -/
def headSep (sep : List Char) : List Char → Prop
  | [] => True
  | c :: _ => c ∈ sep

/-- A successful alternative match consumed exactly the returned capture. -/
theorem matchAlt_append : ∀ (alt : List Atom) (s m r : List Char),
    matchAlt alt s = some (m, r) → s = m ++ r := by
  intro alt
  induction alt with
  | nil =>
    intro s m r h
    simp only [matchAlt, Option.some.injEq, Prod.mk.injEq] at h
    rw [← h.1, ← h.2]
    rfl
  | cons a as ih =>
    intro s m r h
    cases s with
    | nil => simp [matchAlt] at h
    | cons c s' =>
      simp only [matchAlt] at h
      by_cases hm : atomMatches a c
      · rw [if_pos hm] at h
        cases hma : matchAlt as s' with
        | none => rw [hma] at h; simp at h
        | some p =>
          obtain ⟨m', r'⟩ := p
          rw [hma] at h
          simp only [Option.some.injEq, Prod.mk.injEq] at h
          rw [← h.1, ← h.2]
          have := ih s' m' r' hma
          rw [List.cons_append, ← this]
      · rw [if_neg hm] at h; simp at h

/-- A list of literal atoms can capture only its own text. -/
theorem matchAlt_lit_text : ∀ (ws s m r : List Char),
    matchAlt (ws.map Atom.lit) s = some (m, r) → m = ws := by
  intro ws
  induction ws with
  | nil =>
    intro s m r h
    simp only [List.map_nil, matchAlt, Option.some.injEq, Prod.mk.injEq] at h
    exact h.1.symm
  | cons w ws ih =>
    intro s m r h
    cases s with
    | nil => simp [matchAlt] at h
    | cons c s' =>
      simp only [List.map_cons, matchAlt] at h
      by_cases hm : atomMatches (Atom.lit w) c
      · rw [if_pos hm] at h
        cases hma : matchAlt (ws.map Atom.lit) s' with
        | none => rw [hma] at h; simp at h
        | some p =>
          obtain ⟨m', r'⟩ := p
          rw [hma] at h
          simp only [Option.some.injEq, Prod.mk.injEq] at h
          have hw : w = c := by simpa [atomMatches] using hm
          rw [← h.1, ih s' m' r' hma, hw]
      · rw [if_neg hm] at h; simp at h

/-- A list of literal atoms matches at the head of its own text. -/
theorem matchAlt_lit_self : ∀ (ws q : List Char),
    matchAlt (ws.map Atom.lit) (ws ++ q) = some (ws, q) := by
  intro ws
  induction ws with
  | nil => intro q; simp [matchAlt]
  | cons w ws ih =>
    intro q
    simp only [List.map_cons, List.cons_append, matchAlt, atomMatches]
    rw [if_pos (by simp)]
    simp only [List.append_eq]
    rw [ih q]

/-- Decomposition of a successful single-alternative match: the subject is the
capture, then `'='`, then a remainder whose value run is dropped. -/
theorem fieldMatch_eq {alt : List Atom} {sep s m r : List Char}
    (h : fieldMatch alt sep s = some (m, r)) :
    ∃ r0, s = m ++ '=' :: r0 ∧ r = r0.dropWhile (notSep sep) := by
  unfold fieldMatch at h
  cases hma : matchAlt alt s with
  | none => rw [hma] at h; simp at h
  | some p =>
    obtain ⟨m', r'⟩ := p
    rw [hma, Option.some_bind] at h
    cases r' with
    | nil => simp [eqThenValue] at h
    | cons c r0 =>
      simp only [eqThenValue] at h
      by_cases hc : c = '='
      · rw [if_pos hc] at h
        simp only [Option.some.injEq, Prod.mk.injEq] at h
        refine ⟨r0, ?_, h.2.symm⟩
        have := matchAlt_append alt s m' (c :: r0) hma
        rw [this, h.1, hc]
      · rw [if_neg hc] at h; simp at h

/-- No alternative matches in an empty subject. -/
theorem fieldMatch_nil (alt : List Atom) (sep : List Char) :
    fieldMatch alt sep [] = none := by
  cases alt with
  | nil => simp [fieldMatch, matchAlt, eqThenValue]
  | cons a as => simp [fieldMatch, matchAlt]

/-- The pattern never matches in an empty subject. -/
theorem tryMatchAt_nil (alts : List (List Atom)) (sep : List Char) :
    tryMatchAt alts sep [] = none := by
  induction alts with
  | nil => rfl
  | cons alt rest ih => simp [tryMatchAt, fieldMatch_nil, ih]

/-- Decomposition of a successful pattern match at the head of the subject. -/
theorem tryMatchAt_eq {alts : List (List Atom)} {sep s m r : List Char}
    (h : tryMatchAt alts sep s = some (m, r)) :
    ∃ r0, s = m ++ '=' :: r0 ∧ r = r0.dropWhile (notSep sep) := by
  induction alts with
  | nil => simp [tryMatchAt] at h
  | cons alt rest ih =>
    simp only [tryMatchAt] at h
    cases hf : fieldMatch alt sep s with
    | none => rw [hf] at h; exact ih h
    | some res =>
      rw [hf] at h
      simp only [Option.some.injEq] at h
      rw [h] at hf
      exact fieldMatch_eq hf

/-- Dropping a prefix never lengthens a list. -/
theorem length_dropWhile_le (p : Char → Bool) :
    ∀ l : List Char, (l.dropWhile p).length ≤ l.length := by
  intro l
  induction l with
  | nil => simp
  | cons c t ih =>
    rw [List.dropWhile_cons]
    by_cases hp : p c
    · rw [if_pos hp]; exact Nat.le_succ_of_le ih
    · rw [if_neg hp]

/-- A match strictly shrinks the subject: it consumes at least the `'='`. -/
theorem tryMatchAt_length {alts : List (List Atom)} {sep s m r : List Char}
    (h : tryMatchAt alts sep s = some (m, r)) : r.length < s.length := by
  obtain ⟨r0, hs, hr⟩ := tryMatchAt_eq h
  have h1 : r.length ≤ r0.length := by
    rw [hr]; exact length_dropWhile_le _ _
  have h2 : r0.length < s.length := by
    rw [hs]; simp; omega
  omega

/-- The fuel of the scan is irrelevant once it covers the subject length. -/
theorem subScanF_congr (alts : List (List Atom)) (red sep : List Char) :
    ∀ (f1 f2 : Nat) (s : List Char), s.length ≤ f1 → s.length ≤ f2 →
      subScanF alts red sep f1 s = subScanF alts red sep f2 s := by
  intro f1
  induction f1 with
  | zero =>
    intro f2 s h1 h2
    cases s with
    | nil => cases f2 <;> rfl
    | cons c rest => simp at h1
  | succ f1 ih =>
    intro f2 s h1 h2
    cases s with
    | nil => cases f2 <;> rfl
    | cons c rest =>
      cases f2 with
      | zero => simp at h2
      | succ f2' =>
        simp only [subScanF]
        cases h : tryMatchAt alts sep (c :: rest) with
        | none =>
          have hl : rest.length ≤ f1 := by simp at h1; omega
          have hl2 : rest.length ≤ f2' := by simp at h2; omega
          show c :: subScanF alts red sep f1 rest = c :: subScanF alts red sep f2' rest
          rw [ih f2' rest hl hl2]
        | some p =>
          obtain ⟨m, r⟩ := p
          have hlt := tryMatchAt_length h
          have hl : r.length ≤ f1 := by simp at hlt h1; omega
          have hl2 : r.length ≤ f2' := by simp at hlt h2; omega
          show m ++ '=' :: (red ++ subScanF alts red sep f1 r)
            = m ++ '=' :: (red ++ subScanF alts red sep f2' r)
          rw [ih f2' r hl hl2]

theorem subScan_nil (alts : List (List Atom)) (red sep : List Char) :
    subScan alts red sep [] = [] := rfl

/-- Scan equation at an unmatched position: copy one character. -/
theorem subScan_cons_none {alts : List (List Atom)} {sep : List Char}
    {c : Char} {rest : List Char} (red : List Char)
    (h : tryMatchAt alts sep (c :: rest) = none) :
    subScan alts red sep (c :: rest) = c :: subScan alts red sep rest := by
  unfold subScan
  simp only [List.length_cons, subScanF, h]

/-- Scan equation at a match: emit `capture ++ "=" ++ redaction`, continue
after the match. -/
theorem subScan_cons_some {alts : List (List Atom)} {sep m r : List Char}
    {c : Char} {rest : List Char} (red : List Char)
    (h : tryMatchAt alts sep (c :: rest) = some (m, r)) :
    subScan alts red sep (c :: rest)
      = m ++ '=' :: (red ++ subScan alts red sep r) := by
  unfold subScan
  simp only [List.length_cons, subScanF, h]
  have hlt := tryMatchAt_length h
  simp only [List.length_cons] at hlt
  rw [subScanF_congr alts red sep rest.length r.length r (by omega) (by omega)]

/-- Scan equation at a match, for a subject of unknown shape. -/
theorem subScan_some {alts : List (List Atom)} {sep s m r : List Char}
    (red : List Char) (h : tryMatchAt alts sep s = some (m, r)) :
    subScan alts red sep s = m ++ '=' :: (red ++ subScan alts red sep r) := by
  cases s with
  | nil => rw [tryMatchAt_nil] at h; exact absurd h (by simp)
  | cons c rest => exact subScan_cons_some red h

@[simp] theorem headSep_nil (sep : List Char) : headSep sep [] ↔ True := Iff.rfl

@[simp] theorem headSep_cons (sep : List Char) (c : Char) (t : List Char) :
    headSep sep (c :: t) ↔ c ∈ sep := Iff.rfl

/-- The remainder after the value run is empty or starts at a separator. -/
theorem headSep_dropWhile (sep : List Char) :
    ∀ r0 : List Char, headSep sep (r0.dropWhile (notSep sep)) := by
  intro r0
  induction r0 with
  | nil => simp
  | cons c t ih =>
    rw [List.dropWhile_cons]
    by_cases hp : notSep sep c
    · rw [if_pos hp]; exact ih
    · rw [if_neg hp]
      simp only [headSep_cons]
      simpa [notSep] using hp

/-- The value run `[^S]*` swallows a separator-free block and stops exactly at
a remainder that is empty or starts at a separator. -/
theorem dropWhile_append_notSep {sep red t : List Char}
    (hred : ∀ c ∈ red, ¬ c ∈ sep) (ht : headSep sep t) :
    (red ++ t).dropWhile (notSep sep) = t := by
  induction red with
  | nil =>
    cases t with
    | nil => rfl
    | cons c t' =>
      simp only [List.nil_append]
      rw [List.dropWhile_cons_of_neg]
      simp only [headSep_cons] at ht
      simp [notSep, ht]
  | cons c red' ih =>
    simp only [List.cons_append]
    rw [List.dropWhile_cons_of_pos]
    · exact ih (fun x hx => hred x (List.mem_cons_of_mem c hx))
    · simp only [notSep]
      simpa using hred c (List.mem_cons_self c red')

/-- A successful single-alternative match for a literal alternative captures
its own text. -/
theorem fieldMatch_lit_text {ws sep s m r : List Char}
    (h : fieldMatch (ws.map Atom.lit) sep s = some (m, r)) : m = ws := by
  unfold fieldMatch at h
  cases hma : matchAlt (ws.map Atom.lit) s with
  | none => rw [hma] at h; simp at h
  | some p =>
    obtain ⟨m', r'⟩ := p
    rw [hma, Option.some_bind] at h
    cases r' with
    | nil => simp [eqThenValue] at h
    | cons c r0 =>
      simp only [eqThenValue] at h
      by_cases hc : c = '='
      · rw [if_pos hc] at h
        simp only [Option.some.injEq, Prod.mk.injEq] at h
        rw [← h.1]
        exact matchAlt_lit_text ws s m' (c :: r0) hma
      · rw [if_neg hc] at h; simp at h

/-- A literal alternative completes a match exactly when the subject starts
with its text followed by `'='`. -/
theorem fieldMatch_lit_ne {ws sep s : List Char} :
    fieldMatch (ws.map Atom.lit) sep s ≠ none ↔ ∃ t, s = ws ++ '=' :: t := by
  constructor
  · intro h
    cases hf : fieldMatch (ws.map Atom.lit) sep s with
    | none => exact absurd hf h
    | some p =>
      obtain ⟨m, r⟩ := p
      obtain ⟨r0, hs, _⟩ := fieldMatch_eq hf
      exact ⟨r0, by rw [hs, fieldMatch_lit_text hf]⟩
  · intro ⟨t, hs⟩
    rw [hs]
    unfold fieldMatch
    rw [matchAlt_lit_self, Option.some_bind]
    simp [eqThenValue]

/-- The prefix-shift core: a literal, `'='`-free alternative that matches at
the head of `p ++ '=' :: y` completes its `field=` part no later than the
shown `'='`, so it also matches at the head of `p ++ '=' :: x`. -/
theorem litMatch_shift {ws : List Char} (hw : ¬ '=' ∈ ws) :
    ∀ (p x y : List Char), (∃ t, p ++ '=' :: y = ws ++ '=' :: t) →
      ∃ t', p ++ '=' :: x = ws ++ '=' :: t' := by
  induction ws with
  | nil =>
    intro p x y _
    cases p with
    | nil => exact ⟨x, rfl⟩
    | cons c p' =>
      obtain ⟨t, hcp⟩ := ‹∃ t, (c :: p') ++ '=' :: y = [] ++ '=' :: t›
      simp only [List.cons_append, List.nil_append, List.cons.injEq] at hcp
      exact ⟨p' ++ '=' :: x, by rw [List.cons_append, List.nil_append, hcp.1]⟩
  | cons w ws' ih =>
    intro p x y hpy
    obtain ⟨t, hcp⟩ := hpy
    cases p with
    | nil =>
      simp only [List.nil_append, List.cons_append, List.cons.injEq] at hcp
      exact absurd (hcp.1 ▸ List.mem_cons_self w ws') hw
    | cons c p' =>
      simp only [List.cons_append, List.cons.injEq] at hcp
      have hw' : ¬ '=' ∈ ws' := fun hx => hw (List.mem_cons_of_mem w hx)
      obtain ⟨t', ht'⟩ := ih hw' p' x y ⟨t, hcp.2⟩
      exact ⟨t', by rw [List.cons_append, ht', hcp.1, List.cons_append]⟩

/-- Transfer of a failed single-alternative match across a change of the text
after the first shown `'='`. -/
theorem fieldMatch_none_transfer {ws sep p x y : List Char} (hw : ¬ '=' ∈ ws)
    (h : fieldMatch (ws.map Atom.lit) sep (p ++ '=' :: x) = none) :
    fieldMatch (ws.map Atom.lit) sep (p ++ '=' :: y) = none := by
  by_contra h2
  have hex := fieldMatch_lit_ne.mp h2
  have := litMatch_shift hw p x y hex
  exact (fieldMatch_lit_ne.mpr this) h

/-- Transfer of a failed pattern match across a change of the text after the
first shown `'='`, for good alternatives. -/
theorem tryMatchAt_none_transfer {alts : List (List Atom)} {sep : List Char}
    (hg : ∀ alt ∈ alts, goodAlt alt) {p x : List Char} (y : List Char)
    (h : tryMatchAt alts sep (p ++ '=' :: x) = none) :
    tryMatchAt alts sep (p ++ '=' :: y) = none := by
  induction alts with
  | nil => rfl
  | cons alt rest ih =>
    simp only [tryMatchAt] at h ⊢
    cases hf : fieldMatch alt sep (p ++ '=' :: x) with
    | some res => rw [hf] at h; simp at h
    | none =>
      rw [hf] at h
      obtain ⟨ws, halt, hw⟩ := hg alt (List.mem_cons_self alt rest)
      subst halt
      rw [fieldMatch_none_transfer hw hf]
      exact ih (fun a ha => hg a (List.mem_cons_of_mem _ ha)) h

/-- Transfer of a successful pattern match across a change of the text after
its `'='`: the same (first succeeding) alternative wins again with the same
capture, and the value run is recomputed on the new remainder. -/
theorem tryMatchAt_transfer {alts : List (List Atom)} {sep : List Char}
    (hg : ∀ alt ∈ alts, goodAlt alt) {m r0 r : List Char}
    (h : tryMatchAt alts sep (m ++ '=' :: r0) = some (m, r)) (y : List Char) :
    tryMatchAt alts sep (m ++ '=' :: y)
      = some (m, y.dropWhile (notSep sep)) := by
  induction alts with
  | nil => simp [tryMatchAt] at h
  | cons alt rest ih =>
    simp only [tryMatchAt] at h ⊢
    cases hf : fieldMatch alt sep (m ++ '=' :: r0) with
    | some res =>
      rw [hf] at h
      simp only [Option.some.injEq] at h
      obtain ⟨ws, halt, hw⟩ := hg alt (List.mem_cons_self alt rest)
      subst halt
      have hm : m = ws := by
        have := fieldMatch_lit_text (h ▸ hf)
        exact this
      subst hm
      have hfy : fieldMatch (m.map Atom.lit) sep (m ++ '=' :: y)
          = some (m, y.dropWhile (notSep sep)) := by
        unfold fieldMatch
        rw [matchAlt_lit_self, Option.some_bind]
        simp [eqThenValue]
      rw [hfy]
    | none =>
      rw [hf] at h
      obtain ⟨ws, halt, hw⟩ := hg alt (List.mem_cons_self alt rest)
      subst halt
      rw [fieldMatch_none_transfer hw hf]
      exact ih (fun a ha => hg a (List.mem_cons_of_mem _ ha)) h

/-- One pass of the scan leaves the subject unchanged, or subject and output
agree up to one position and both continue with `'='` there. -/
theorem subScan_sync (alts : List (List Atom)) (red sep : List Char) :
    ∀ (n : Nat) (s : List Char), s.length ≤ n →
      subScan alts red sep s = s ∨
      ∃ p x y, s = p ++ '=' :: x ∧ subScan alts red sep s = p ++ '=' :: y := by
  intro n
  induction n with
  | zero =>
    intro s h
    cases s with
    | nil => left; rfl
    | cons c rest => simp at h
  | succ n ih =>
    intro s h
    cases s with
    | nil => left; rfl
    | cons c rest =>
      cases hm : tryMatchAt alts sep (c :: rest) with
      | some p' =>
        obtain ⟨m, r⟩ := p'
        obtain ⟨r0, hs, _⟩ := tryMatchAt_eq hm
        right
        exact ⟨m, r0, red ++ subScan alts red sep r, hs, subScan_cons_some red hm⟩
      | none =>
        have heq := subScan_cons_none red hm
        rcases ih rest (by simp at h; omega) with h1 | ⟨p, x, y, hx, hy⟩
        · left; rw [heq, h1]
        · right
          refine ⟨c :: p, x, y, by rw [hx]; rfl, ?_⟩
          rw [heq, hy]
          rfl

/-- A remainder that starts at a separator (or is empty) still does after one
pass of the scan. -/
theorem headSep_subScan (alts : List (List Atom)) (red sep : List Char)
    {s : List Char} (h : headSep sep s) :
    headSep sep (subScan alts red sep s) := by
  cases s with
  | nil => rw [subScan_nil]; trivial
  | cons c rest =>
    cases hm : tryMatchAt alts sep (c :: rest) with
    | none =>
      rw [subScan_cons_none red hm]
      simpa using h
    | some p' =>
      obtain ⟨m, r⟩ := p'
      obtain ⟨r0, hs, _⟩ := tryMatchAt_eq hm
      rw [subScan_cons_some red hm]
      cases m with
      | nil =>
        simp only [List.nil_append, List.cons.injEq] at hs ⊢
        simp only [headSep_cons] at h ⊢
        rw [← hs.1]
        exact h
      | cons c' m' =>
        simp only [List.cons_append, List.cons.injEq] at hs ⊢
        simp only [headSep_cons] at h ⊢
        rw [← hs.1]
        exact h

/-- Core idempotence of the substitution scan: when every alternative is
literal and `'='`-free and the redaction token contains no separator
character, a second pass over the output of a first pass changes nothing. -/
theorem subScan_idem (alts : List (List Atom)) (red sep : List Char)
    (hg : ∀ alt ∈ alts, goodAlt alt)
    (ht : ∀ c ∈ red, ¬ c ∈ sep) :
    ∀ (n : Nat) (s : List Char), s.length ≤ n →
      subScan alts red sep (subScan alts red sep s)
        = subScan alts red sep s := by
  intro n
  induction n with
  | zero =>
    intro s h
    cases s with
    | nil => rfl
    | cons c rest => simp at h
  | succ n ih =>
    intro s h
    cases s with
    | nil => rfl
    | cons c rest =>
      cases hm : tryMatchAt alts sep (c :: rest) with
      | none =>
        rw [subScan_cons_none red hm]
        have h2 : tryMatchAt alts sep (c :: subScan alts red sep rest) = none := by
          rcases subScan_sync alts red sep rest.length rest (Nat.le_refl _) with
            h1 | ⟨p, x, y, hx, hy⟩
          · rw [h1]; exact hm
          · rw [hy]
            have hm' : tryMatchAt alts sep ((c :: p) ++ '=' :: x) = none := by
              rw [List.cons_append, ← hx]; exact hm
            have htr := tryMatchAt_none_transfer hg y hm'
            rw [List.cons_append] at htr
            exact htr
        rw [subScan_cons_none red h2]
        rw [ih rest (by simp at h; omega)]
      | some p' =>
        obtain ⟨m, r⟩ := p'
        obtain ⟨r0, hs, hr⟩ := tryMatchAt_eq hm
        rw [subScan_cons_some red hm]
        have hm2 : tryMatchAt alts sep (m ++ '=' :: r0) = some (m, r) := by
          rw [← hs]; exact hm
        have hT := tryMatchAt_transfer hg hm2 (red ++ subScan alts red sep r)
        have hdw : (red ++ subScan alts red sep r).dropWhile (notSep sep)
            = subScan alts red sep r := by
          apply dropWhile_append_notSep ht
          apply headSep_subScan
          rw [hr]
          exact headSep_dropWhile sep r0
        rw [hdw] at hT
        rw [subScan_some red hT]
        have hrlen : r.length ≤ n := by
          have hlt := tryMatchAt_length hm
          simp only [List.length_cons] at hlt h
          omega
        rw [ih r hrlen]

/-- Parsing a name made of plainly literal characters yields literal atoms. -/
theorem parseAlt_lit : ∀ g : List Char, (∀ c ∈ g, c ≠ '.' ∧ ¬ c ∈ reMeta) →
    parseAlt g = some (g.map Atom.lit) := by
  intro g
  induction g with
  | nil => intro _; rfl
  | cons c rest ih =>
    intro hg
    have hc := hg c (List.mem_cons_self c rest)
    have hatom : parseAtom c = some (Atom.lit c) := by
      unfold parseAtom
      rw [if_neg hc.1, if_neg hc.2]
    simp only [parseAlt, hatom, ih (fun x hx => hg x (List.mem_cons_of_mem c hx)),
      List.map_cons]

/-- Parsing a list of all-literal alternatives succeeds with literal atoms. -/
theorem parseAlts_all : ∀ gs : List (List Char),
    (∀ g ∈ gs, parseAlt g = some (g.map Atom.lit)) →
    parseAlts gs = some (gs.map (fun g => g.map Atom.lit)) := by
  intro gs
  induction gs with
  | nil => intro _; rfl
  | cons g rest ih =>
    intro hg
    simp only [parseAlts, hg g (List.mem_cons_self g rest),
      ih (fun x hx => hg x (List.mem_cons_of_mem g hx)), List.map_cons]

/-- Parsing one alternative succeeds when every character parses. -/
theorem parseAlt_isSome : ∀ g : List Char, (∀ c ∈ g, (parseAtom c).isSome) →
    (parseAlt g).isSome := by
  intro g
  induction g with
  | nil => intro _; rfl
  | cons c rest ih =>
    intro hg
    have hc := hg c (List.mem_cons_self c rest)
    have hr := ih (fun x hx => hg x (List.mem_cons_of_mem c hx))
    cases ha : parseAtom c with
    | none => rw [ha] at hc; simp at hc
    | some a =>
      cases hb : parseAlt rest with
      | none => rw [hb] at hr; simp at hr
      | some as => simp [parseAlt, ha, hb]

/-- Parsing the alternation succeeds when every alternative parses. -/
theorem parseAlts_isSome : ∀ gs : List (List Char),
    (∀ g ∈ gs, (parseAlt g).isSome) → (parseAlts gs).isSome := by
  intro gs
  induction gs with
  | nil => intro _; rfl
  | cons g rest ih =>
    intro hg
    have hc := hg g (List.mem_cons_self g rest)
    have hr := ih (fun x hx => hg x (List.mem_cons_of_mem g hx))
    cases ha : parseAlt g with
    | none => rw [ha] at hc; simp at hc
    | some a =>
      cases hb : parseAlts rest with
      | none => rw [hb] at hr; simp at hr
      | some as => simp [parseAlts, ha, hb]

/-- Characters of the joined field list come from a field or are the `'|'`. -/
theorem mem_joinPipe : ∀ (ls : List (List Char)) (c : Char),
    c ∈ joinPipe ls → c = '|' ∨ ∃ l ∈ ls, c ∈ l := by
  intro ls
  induction ls with
  | nil => intro c hc; simp [joinPipe] at hc
  | cons f fs ih =>
    intro c hc
    cases fs with
    | nil =>
      right
      exact ⟨f, List.mem_cons_self f [], hc⟩
    | cons f2 fs' =>
      simp only [joinPipe, List.mem_append, List.mem_cons] at hc
      rcases hc with hf | hbar | hrest
      · exact Or.inr ⟨f, List.mem_cons_self f _, hf⟩
      · exact Or.inl hbar
      · rcases ih c hrest with h1 | ⟨l, hl, hcl⟩
        · exact Or.inl h1
        · exact Or.inr ⟨l, List.mem_cons_of_mem f hl, hcl⟩

/-- The `'|'`-split is never the empty list of groups. -/
theorem splitPipe_ne_nil : ∀ l : List Char, splitPipe l ≠ [] := by
  intro l
  cases l with
  | nil => simp [splitPipe]
  | cons c rest =>
    simp only [splitPipe]
    by_cases hc : c = '|'
    · rw [if_pos hc]; simp
    · rw [if_neg hc]
      cases splitPipe rest <;> simp

/-- Characters of a group of the `'|'`-split come from the split subject and
are never `'|'`. -/
theorem mem_splitPipe : ∀ (l : List Char) (g : List Char), g ∈ splitPipe l →
    ∀ c ∈ g, c ∈ l ∧ c ≠ '|' := by
  intro l
  induction l with
  | nil =>
    intro g hg c hc
    simp [splitPipe] at hg
    rw [hg] at hc
    simp at hc
  | cons d rest ih =>
    intro g hg c hc
    simp only [splitPipe] at hg
    by_cases hd : d = '|'
    · rw [if_pos hd] at hg
      rcases List.mem_cons.mp hg with h1 | h2
      · rw [h1] at hc; simp at hc
      · have := ih g h2 c hc
        exact ⟨List.mem_cons_of_mem d this.1, this.2⟩
    · rw [if_neg hd] at hg
      cases hsp : splitPipe rest with
      | nil => exact absurd hsp (splitPipe_ne_nil rest)
      | cons g1 gs =>
        rw [hsp] at hg
        rcases List.mem_cons.mp hg with h1 | h2
        · rw [h1] at hc
          rcases List.mem_cons.mp hc with hcd | hcg1
          · exact ⟨by rw [hcd]; exact List.mem_cons_self d rest, by rw [hcd]; exact hd⟩
          · have := ih g1 (by rw [hsp]; exact List.mem_cons_self g1 gs) c hcg1
            exact ⟨List.mem_cons_of_mem d this.1, this.2⟩
        · have := ih g (by rw [hsp]; exact List.mem_cons_of_mem g1 h2) c hc
          exact ⟨List.mem_cons_of_mem d this.1, this.2⟩

/-- Splitting a `'|'`-free subject gives back the subject as the only group. -/
theorem splitPipe_no_pipe : ∀ l : List Char, ¬ '|' ∈ l → splitPipe l = [l] := by
  intro l
  induction l with
  | nil => intro _; rfl
  | cons c rest ih =>
    intro hl
    have hc : ¬ c = '|' := fun h => hl (h ▸ List.mem_cons_self c rest)
    simp only [splitPipe]
    rw [if_neg hc, ih (fun h => hl (List.mem_cons_of_mem c h))]

/-- Compiling field names made of plainly literal, `'='`-free characters
(besides the `'|'` the construction itself interprets) yields alternatives of
the good shape. -/
theorem compileAlts_good {fields : List String}
    (hf : ∀ f ∈ fields, ∀ c ∈ f.data, c = '|' ∨ (c ≠ '.' ∧ ¬ c ∈ reMeta ∧ c ≠ '=')) :
    ∃ alts, compileAlts fields = some alts ∧ ∀ alt ∈ alts, goodAlt alt := by
  have hchar : ∀ g ∈ splitPipe (joinPipe (fields.map String.data)),
      ∀ c ∈ g, c ≠ '.' ∧ ¬ c ∈ reMeta ∧ c ≠ '=' := by
    intro g hg c hc
    have hmem := mem_splitPipe _ g hg c hc
    rcases mem_joinPipe _ c hmem.1 with h1 | ⟨l, hl, hcl⟩
    · exact absurd h1 hmem.2
    · obtain ⟨f, hfmem, hfl⟩ := List.mem_map.mp hl
      rcases hf f hfmem c (by rw [hfl]; exact hcl) with h2 | h2
      · exact absurd h2 hmem.2
      · exact h2
  refine ⟨(splitPipe (joinPipe (fields.map String.data))).map (fun g => g.map Atom.lit),
    ?_, ?_⟩
  · unfold compileAlts
    exact parseAlts_all _ (fun g hg =>
      parseAlt_lit g (fun c hc => ⟨(hchar g hg c hc).1, (hchar g hg c hc).2.1⟩))
  · intro alt halt
    obtain ⟨g, hg, hgalt⟩ := List.mem_map.mp halt
    exact ⟨g, hgalt.symm, fun h => (hchar g hg '=' h).2.2 rfl⟩

/-- A valid separator compiles to its own character list. -/
theorem compileSep_eq {separator : String} (h1 : separator.data ≠ [])
    (h2 : ∀ c ∈ separator.data, ¬ c ∈ sepBad) :
    compileSep separator = some separator.data := by
  unfold compileSep
  rw [if_neg h1, if_neg]
  intro hany
  obtain ⟨c, hc, hcb⟩ := List.any_eq_true.mp hany
  exact h2 c hc (by simpa using hcb)

/-- Whatever the separator compiles to is its own character list. -/
theorem compileSep_some {separator : String} {sep : List Char}
    (h : compileSep separator = some sep) : sep = separator.data := by
  unfold compileSep at h
  by_cases h1 : separator.data = []
  · rw [if_pos h1] at h; simp at h
  · rw [if_neg h1] at h
    by_cases h2 : separator.data.any (fun c => decide (c ∈ sepBad))
    · rw [if_pos h2] at h; simp at h
    · rw [if_neg h2] at h
      simp only [Option.some.injEq] at h
      exact h.symm

/-- Unfolding of `filter_datum` when both halves of the pattern compile and
the replacement template is escape-free. -/
theorem filter_datum_eq {fields : List String} {red m sep : String}
    {alts : List (List Atom)} {seps : List Char}
    (hca : compileAlts fields = some alts) (hcs : compileSep sep = some seps)
    (hb : ¬ '\\' ∈ red.data) :
    filter_datum fields red m sep
      = some (String.mk (subScan alts red.data seps m.data)) := by
  unfold filter_datum
  rw [hca, hcs]
  dsimp only
  rw [if_neg hb]

/-- `re.sub` raises when the class built from the separator does not compile. -/
theorem filter_datum_sep_none {fields : List String} {red m sep : String}
    (h : compileSep sep = none) : filter_datum fields red m sep = none := by
  unfold filter_datum
  rw [h]
  cases compileAlts fields <;> rfl

/-- `re.sub` raises on a backslash escape in the replacement template. -/
theorem filter_datum_red_bad {fields : List String} {red m sep : String}
    (hb : '\\' ∈ red.data) : filter_datum fields red m sep = none := by
  unfold filter_datum
  cases compileAlts fields with
  | none => rfl
  | some alts =>
    cases compileSep sep with
    | none => rfl
    | some seps =>
      dsimp only
      rw [if_pos hb]

/-- Idempotence of `filter_datum` on its own output, for field names made of
plainly literal, `'='`-free characters and a redaction token free of
separator characters. -/
theorem filter_datum_idem {fields : List String} {red m sep o : String}
    (hf : ∀ f ∈ fields, ∀ c ∈ f.data, c = '|' ∨ (c ≠ '.' ∧ ¬ c ∈ reMeta ∧ c ≠ '='))
    (ht : ∀ c ∈ red.data, ¬ c ∈ sep.data)
    (h : filter_datum fields red m sep = some o) :
    filter_datum fields red o sep = some o := by
  obtain ⟨alts, hca, hgood⟩ := compileAlts_good hf
  cases hcs : compileSep sep with
  | none => rw [filter_datum_sep_none hcs] at h; exact absurd h (by simp)
  | some seps =>
    by_cases hb : '\\' ∈ red.data
    · rw [filter_datum_red_bad hb] at h; exact absurd h (by simp)
    · have hseps : seps = sep.data := compileSep_some hcs
      rw [filter_datum_eq hca hcs hb] at h
      rw [filter_datum_eq hca hcs hb]
      simp only [Option.some.injEq] at h ⊢
      rw [← h]
      show String.mk (subScan alts red.data seps
        (subScan alts red.data seps m.data)) = _
      rw [subScan_idem alts red.data seps hgood
        (by rw [hseps]; exact ht) m.data.length m.data (Nat.le_refl _)]

/-- Totality of `filter_datum` (and of the formatter built on it) on the
literal fragment: literal-or-dot field names, a valid separator and a
backslash-free token always produce an output string. -/
theorem filter_datum_total {fields : List String} {red sep : String}
    (hf : ∀ f ∈ fields, ∀ c ∈ f.data, c = '|' ∨ c = '.' ∨ ¬ c ∈ reMeta)
    (h1 : sep.data ≠ []) (h2 : ∀ c ∈ sep.data, ¬ c ∈ sepBad)
    (hr : ¬ '\\' ∈ red.data) (m : String) :
    (filter_datum fields red m sep).isSome := by
  have hchar : ∀ g ∈ splitPipe (joinPipe (fields.map String.data)),
      ∀ c ∈ g, (parseAtom c).isSome := by
    intro g hg c hc
    have hmem := mem_splitPipe _ g hg c hc
    rcases mem_joinPipe _ c hmem.1 with hp | ⟨l, hl, hcl⟩
    · exact absurd hp hmem.2
    · obtain ⟨f, hfmem, hfl⟩ := List.mem_map.mp hl
      rcases hf f hfmem c (by rw [hfl]; exact hcl) with hp | hp | hp
      · exact absurd hp hmem.2
      · simp [parseAtom, hp]
      · unfold parseAtom
        by_cases hd : c = '.'
        · rw [if_pos hd]; rfl
        · rw [if_neg hd, if_neg hp]; rfl
  have hsome := parseAlts_isSome _ (fun g hg => parseAlt_isSome g (hchar g hg))
  cases hca : compileAlts fields with
  | none => unfold compileAlts at hca; rw [hca] at hsome; simp at hsome
  | some alts =>
    rw [filter_datum_eq hca (compileSep_eq h1 h2) hr]
    rfl

/-- A list is a prefix of itself followed by anything. -/
theorem isPrefixOf_append : ∀ (p t : List Char), p.isPrefixOf (p ++ t) = true := by
  intro p t
  induction p with
  | nil => simp [List.isPrefixOf]
  | cons c p' ih => simp [List.isPrefixOf, ih]

/-- With an empty field list the group body is empty, so the pattern is
`(?P<field>)=[^S]*`: it matches at every `'='`; on an `'='`-free subject the
scan is the identity. -/
theorem subScan_empty_alt {red sep : List Char} :
    ∀ l : List Char, ¬ '=' ∈ l → subScan [[]] red sep l = l := by
  intro l
  induction l with
  | nil => intro _; rfl
  | cons c rest ih =>
    intro h
    have hc : ¬ c = '=' := fun hx => h (hx ▸ List.mem_cons_self c rest)
    have hm : tryMatchAt [[]] sep (c :: rest) = none := by
      simp [tryMatchAt, fieldMatch, matchAlt, eqThenValue, hc]
    rw [subScan_cons_none red hm, ih (fun hx => h (List.mem_cons_of_mem c hx))]

/-- The scan for one literal alternative is the identity on a subject in
which the alternative's text followed by `'='` never occurs. -/
theorem subScan_no_occurrence {ws red sep : List Char} :
    ∀ l : List Char, occursIn (ws ++ ['=']) l = false →
      subScan [ws.map Atom.lit] red sep l = l := by
  intro l
  induction l with
  | nil => intro _; rfl
  | cons c rest ih =>
    intro h
    unfold occursIn at h
    rw [Bool.or_eq_false_iff] at h
    have hm : tryMatchAt [ws.map Atom.lit] sep (c :: rest) = none := by
      cases hf : fieldMatch (ws.map Atom.lit) sep (c :: rest) with
      | none => simp [tryMatchAt, hf]
      | some res =>
        exfalso
        obtain ⟨t, ht⟩ := fieldMatch_lit_ne.mp (by rw [hf]; simp)
        have hpre : (ws ++ ['=']).isPrefixOf (c :: rest) = true := by
          rw [ht]
          have hshape : ws ++ '=' :: t = (ws ++ ['=']) ++ t := by simp
          rw [hshape]
          exact isPrefixOf_append _ _
        rw [hpre] at h
        exact absurd h.1 (by simp)
    rw [subScan_cons_none red hm, ih h.2]

/-- Claim C7: `filter_datum` on
`"name=Bob;email=bob@x.com;phone=555;ssn=1;password=p"` with the five
sensitive fields, token `"***"` and separator `";"` returns exactly
`"name=***;email=***;phone=***;ssn=***;password=***"`. -/
theorem claim_C7 :
    filter_datum ["name", "email", "phone", "ssn", "password"] "***"
        "name=Bob;email=bob@x.com;phone=555;ssn=1;password=p" ";"
      = some "name=***;email=***;phone=***;ssn=***;password=***" := by
  decide

/-- Claim C8: a sensitive `field=value` segment not followed by the
separator is matched to end of string:
`filter_datum(["password"], "***", "password=abc123", ";") = "password=***"`. -/
theorem claim_C8 :
    filter_datum ["password"] "***" "password=abc123" ";"
      = some "password=***" := by
  decide

/-- Claim C9: the formatter built over the five sensitive fields renders the
end-to-end event with exactly the listed fields redacted and `ip`,
`last_login` and `user_agent` passed through unchanged. -/
theorem claim_C9 :
    (RedactingFormatter.mk PII_FIELDS).format
        ⟨"user_data", "INFO", "2024-01-01 00:00",
          "name=John Doe;email=john@example.com;phone=5551234;ssn=123-45-6789;password=secret;ip=127.0.0.1;last_login=2024-01-01;user_agent=Mozilla"⟩
      = some "[HOLBERTON] user_data INFO 2024-01-01 00:00: name=***;email=***;phone=***;ssn=***;password=***;ip=127.0.0.1;last_login=2024-01-01;user_agent=Mozilla" := by
  set_option maxRecDepth 40000 in decide

/-- Claim C10: a separator string of length greater than one acts as a set of
individually forbidden characters, not as a delimiter string: with separator
`"; "` the matched value of `"a=x yz"` ends at the space (a single character
of the separator) although the two-character string `"; "` never occurs in
the message, while with separator `";"` the same value runs to end of
string. -/
theorem claim_C10 :
    filter_datum ["a"] "***" "a=x yz" "; " = some "a=*** yz" ∧
    occursIn "; ".data "a=x yz".data = false ∧
    filter_datum ["a"] "***" "a=x yz" ";" = some "a=***" := by
  decide

/-- Claim C2 counterexample: the pattern has no word-boundary check, so the
field name `"name"` matches inside `"username"` and the input is changed,
refuting exact-name matching. -/
theorem claim_C2_counterexample :
    filter_datum ["name"] "***" "username=alice" ";"
      ≠ some "username=alice" := by
  decide

/-- Claim C2 (amended): matching in `filter_datum` is bare substring
matching: for the field list `["name"]`, token `"***"` and separator `";"`,
the input `"username=alice"` becomes `"username=***"` because `"name"`
matches inside `"username"`. -/
theorem claim_C2 :
    filter_datum ["name"] "***" "username=alice" ";"
      = some "username=***" := by
  decide

/-- Claim C3 counterexample: with an empty field list the group body is
empty, the pattern is `(?P<field>)=[^;]*` and matches at every `'='`, so the
empty field list is not a no-op: `"a=b"` becomes `"a=***"`. -/
theorem claim_C3_counterexample :
    filter_datum [] "***" "a=b" ";" ≠ some "a=b" := by
  decide

/-- Claim C3 (amended): `filter_datum` with an empty field list is a no-op
only on messages containing no `'='` (the empty alternation matches the
empty field name before every `'='`); on such messages — for any
backslash-free token and valid separator — the message is returned
unchanged. -/
theorem claim_C3 (redaction message separator : String)
    (hm : ¬ '=' ∈ message.data)
    (h1 : separator.data ≠ []) (h2 : ∀ c ∈ separator.data, ¬ c ∈ sepBad)
    (hr : ¬ '\\' ∈ redaction.data) :
    filter_datum [] redaction message separator = some message := by
  have hca : compileAlts [] = some [[]] := rfl
  rw [filter_datum_eq hca (compileSep_eq h1 h2) hr]
  rw [subScan_empty_alt message.data hm]

/-- Claim C3 witness: the amended no-op at a concrete `'='`-free message. -/
theorem claim_C3_witness :
    filter_datum [] "***" "abc" ";" = some "abc" :=
  claim_C3 "***" "abc" ";" (by decide) (by decide) (by decide) (by decide)

/-- Claim C4 counterexample: field names are embedded unescaped, so a regex
metacharacter keeps its meaning: the field `"."` matches the `'x'` of
`"x=1"` although the literal sequence `".="` never occurs in the message,
refuting literal matching of names. -/
theorem claim_C4_counterexample :
    occursIn ".=".data "x=1".data = false ∧
    filter_datum ["."] "***" "x=1" ";" ≠ some "x=1" := by
  decide

/-- Claim C4 (amended): only for a field name free of regex metacharacters
(including `'.'` and `'|'`) is matching literal: if the name followed by
`'='` never occurs in the message, the message is returned unchanged. -/
theorem claim_C4 (f redaction message separator : String)
    (hf : ∀ c ∈ f.data, c ≠ '.' ∧ c ≠ '|' ∧ ¬ c ∈ reMeta)
    (hocc : occursIn (f.data ++ ['=']) message.data = false)
    (h1 : separator.data ≠ []) (h2 : ∀ c ∈ separator.data, ¬ c ∈ sepBad)
    (hr : ¬ '\\' ∈ redaction.data) :
    filter_datum [f] redaction message separator = some message := by
  have hjoin : joinPipe ([f].map String.data) = f.data := rfl
  have hsplit : splitPipe f.data = [f.data] :=
    splitPipe_no_pipe f.data (fun h => (hf '|' h).2.1 rfl)
  have hpa := parseAlt_lit f.data (fun c hc => ⟨(hf c hc).1, (hf c hc).2.2⟩)
  have hca : compileAlts [f] = some [f.data.map Atom.lit] := by
    unfold compileAlts
    rw [hjoin, hsplit]
    simp [parseAlts, hpa]
  rw [filter_datum_eq hca (compileSep_eq h1 h2) hr]
  rw [subScan_no_occurrence message.data hocc]

/-- Claim C4 witness: a literal name that never occurs before a `'='` leaves
the message unchanged. -/
theorem claim_C4_witness :
    filter_datum ["name"] "***" "user" ";" = some "user" :=
  claim_C4 "name" "***" "user" ";" (by decide) (by decide) (by decide)
    (by decide) (by decide)

/-- Claim C5 counterexample: `filter_datum` is not total: the field name
`"("` produces the invalid pattern `(?P<field>()=[^;]*` (an unterminated
group), on which `re.sub` raises `re.error`; the model returns no string. -/
theorem claim_C5_counterexample :
    filter_datum ["("] "***" "a=b" ";" = none := by
  decide

/-- Claim C5 (amended): `filter_datum` and `RedactingFormatter.format` are
total on inputs whose constructed pattern is valid: field names made of
plain characters (or `'|'`/`'.'`), a nonempty separator free of
class-special characters, and a backslash-free token always produce an
output string. -/
theorem claim_C5 (fields : List String)
    (redaction message separator : String) (record : LogRecord)
    (hf : ∀ f ∈ fields, ∀ c ∈ f.data, c = '|' ∨ c = '.' ∨ ¬ c ∈ reMeta)
    (h1 : separator.data ≠ []) (h2 : ∀ c ∈ separator.data, ¬ c ∈ sepBad)
    (hr : ¬ '\\' ∈ redaction.data) :
    (filter_datum fields redaction message separator).isSome ∧
    ((RedactingFormatter.mk fields).format record).isSome := by
  constructor
  · exact filter_datum_total hf h1 h2 hr message
  · exact filter_datum_total hf (by decide) (by decide) (by decide)
      (baseFormat record)

/-- Claim C5 witness: totality at the source's own field tuple. -/
theorem claim_C5_witness :
    (filter_datum PII_FIELDS "***" "x" ";").isSome ∧
    ((RedactingFormatter.mk PII_FIELDS).format ⟨"a", "b", "c", "d"⟩).isSome :=
  claim_C5 PII_FIELDS "***" "x" ";" ⟨"a", "b", "c", "d"⟩ (by decide)
    (by decide) (by decide) (by decide)

/-- Claim C6 counterexample: `filter_datum` is not idempotent for every
token: with token `";a=b"` (which contains the separator), one application
maps `"a=0"` to `"a=;a=b"`, and a second application changes that output
again. -/
theorem claim_C6_counterexample :
    filter_datum ["a"] ";a=b" "a=0" ";" = some "a=;a=b" ∧
    filter_datum ["a"] ";a=b" "a=;a=b" ";" ≠ some "a=;a=b" := by
  decide

/-- Claim C6 (amended): `filter_datum` is idempotent provided every field
name is made of plainly literal characters (no regex metacharacters, no
`'.'`) none of which is `'='`, and the token contains no separator
character: re-filtering any output of `filter_datum` returns it unchanged. -/
theorem claim_C6 (fields : List String)
    (redaction message separator o : String)
    (hf : ∀ f ∈ fields, ∀ c ∈ f.data,
      c = '|' ∨ (c ≠ '.' ∧ ¬ c ∈ reMeta ∧ c ≠ '='))
    (ht : ∀ c ∈ redaction.data, ¬ c ∈ separator.data)
    (h : filter_datum fields redaction message separator = some o) :
    filter_datum fields redaction o separator = some o :=
  filter_datum_idem hf ht h

/-- Claim C6 witness: idempotence at a concrete redacted output. -/
theorem claim_C6_witness :
    filter_datum ["a"] "***" "a=***" ";" = some "a=***" :=
  claim_C6 ["a"] "***" "a=1" ";" "a=***" (by decide) (by decide) (by decide)

/-- Claim C1 counterexample: the formatter invariant fails for a configured
field set containing regex metacharacters: with fields `["a=...;b", "a"]`
(the `'.'` atoms match the token `"***"`), re-applying `filter_datum` to the
rendered output changes it, so re-running the redactor over `format`'s
output is not a no-op. -/
theorem claim_C1_counterexample :
    (RedactingFormatter.mk ["a=...;b", "a"]).format
        ⟨"app", "INFO", "2024-01-01 00:00", "a=12;b=9"⟩
      = some "[HOLBERTON] app INFO 2024-01-01 00:00: a=***;b=9" ∧
    filter_datum ["a=...;b", "a"] "***"
        "[HOLBERTON] app INFO 2024-01-01 00:00: a=***;b=9" ";"
      ≠ some "[HOLBERTON] app INFO 2024-01-01 00:00: a=***;b=9" := by
  set_option maxRecDepth 40000 in decide

/-- Claim C1 (amended): for a formatter whose configured field names are
made of plainly literal characters (no regex metacharacters, no `'.'`) none
of which is `'='`, every string `format` returns is a fixed point of
`filter_datum` with the same fields, token `"***"` and separator `";"`:
re-running the redactor over the output is a no-op. -/
theorem claim_C1 (fields : List String) (record : LogRecord) (o : String)
    (hf : ∀ f ∈ fields, ∀ c ∈ f.data,
      c = '|' ∨ (c ≠ '.' ∧ ¬ c ∈ reMeta ∧ c ≠ '='))
    (h : (RedactingFormatter.mk fields).format record = some o) :
    filter_datum fields "***" o ";" = some o := by
  have h' : filter_datum fields "***" (baseFormat record) ";" = some o := h
  exact filter_datum_idem hf (by decide) h'

/-- Claim C1 witness: the formatter invariant at a concrete event. -/
theorem claim_C1_witness :
    filter_datum ["name"] "***"
        "[HOLBERTON] app INFO 2024-01-01 00:00: name=***" ";"
      = some "[HOLBERTON] app INFO 2024-01-01 00:00: name=***" :=
  claim_C1 ["name"] ⟨"app", "INFO", "2024-01-01 00:00", "name=Bob"⟩
    "[HOLBERTON] app INFO 2024-01-01 00:00: name=***" (by decide) (by decide)

end FilteredLogger
